import Mathlib

/-!
Verification of the perceptual-duplicate detection and review engine of the
photosort repository (src/compare_images.py), via a shallow embedding.

Modelling conventions:
* Paths, hash names and hash strings are Lean `String`s; modification times
  are `Nat`.
* Pickled cache payloads are modelled by the inductive `PVal`; a cache file
  on disk holds a `Blob`, which is either a well-formed pickle of a `PVal`,
  corrupt bytes (anything `pickle.load` raises on), or, for the append-only
  deletion log, plain text lines.
* The persistent files the engine touches are identified by the inductive
  `CacheKey`.  The keys `reviewedCwd`/`deletedCwd` stand for the
  working-directory-relative files REVIEWED_CACHE = .reviewed_groups.pkl and
  DELETED_CACHE = .deleted_images.pkl, while `reviewedDir`/`deletedDir`
  stand for the files of the same names inside the target directory, which
  ensure_cache_files_writable touches.  The source addresses them by path
  strings; the key model corresponds to a run whose working directory is
  not the target directory, so the two families are distinct files.
* The filesystem is an association list from `CacheKey` to `Blob`
  (`fsGet`/`fsSet`/`fsErase`).
* In the model of a full run every file write succeeds (the run-relevant
  claims condition on writability); permission failures are modelled
  separately for the two savers (`save_pickle_cache`, `save_hash_cache`)
  with a moded filesystem `PermFS`.
-/

namespace PhotoSort

/-- A pickled python value as stored in one of the cache files:
a hash-cache dict from (path, mtime) to hash string, the sentinel dict
written by the integrity guard self-test (key test mapped to 123), a set of
path tuples (reviewed cache), a set of paths (deleted cache), or the pair
of the groups list and the visited set (groups cache). -/
inductive PVal where
  | hmap (m : List ((String × Nat) × String))
  | testDict
  | rset (s : Finset (List String))
  | dset (s : Finset String)
  | gpair (groups : List (List (String × String))) (visited : Finset String)
deriving DecidableEq

/-- The raw content of a cache file: a well-formed pickle of a `PVal`,
corrupt bytes on which pickle.load raises, or plain text lines (the
append-only deletion log). -/
inductive Blob where
  | val (v : PVal)
  | corrupt
  | text (lines : List String)
deriving DecidableEq

/-- Identities of the persistent files the engine touches.  `hashCache h`
is directory/.hash_cache_h.pkl; `reviewedCwd`/`deletedCwd` are the
working-directory-relative reviewed/deleted caches actually used by the
review loop; `reviewedDir`/`deletedDir` are the same file names inside the
target directory, which only the integrity guard touches;
`homeFallback k` is the fallback location HOME/.photosort_cache_(name of k)
used by save_pickle_cache on permission failure. -/
inductive CacheKey where
  | groupsCache
  | groupsMeta
  | reviewedDir
  | deletedDir
  | hashCache (hname : String)
  | reviewedCwd
  | deletedCwd
  | deletedLog
  | homeFallback (base : CacheKey)
deriving DecidableEq

/-- A filesystem restricted to the cache files: an association list from
file identity to content.  Lookup takes the first binding. -/
def FileSys : Type := List (CacheKey × Blob)

/-- Read a file (None when it does not exist). -/
def fsGet : FileSys → CacheKey → Option Blob
  | [], _ => none
  | (k', b) :: rest, k => if k' = k then some b else fsGet rest k

/-- Remove every binding of a key. -/
def fsErase : FileSys → CacheKey → FileSys
  | [], _ => []
  | (k', b) :: rest, k => if k' = k then fsErase rest k else (k', b) :: fsErase rest k

/-- Write a file (creating or replacing it). -/
def fsSet (fs : FileSys) (k : CacheKey) (b : Blob) : FileSys :=
  (k, b) :: fsErase fs k

theorem fsGet_erase_ne (fs : FileSys) {k k' : CacheKey} (h : k ≠ k') :
    fsGet (fsErase fs k) k' = fsGet fs k' := by
  induction fs with
  | nil => rfl
  | cons hd tl ih =>
    obtain ⟨a, b⟩ := hd
    by_cases hak : a = k
    · subst hak
      simp [fsErase, fsGet, h, ih]
    · by_cases hak' : a = k'
      · subst hak'
        simp [fsErase, fsGet, hak]
      · simp [fsErase, fsGet, hak, hak', ih]

theorem fsGet_set_same (fs : FileSys) (k : CacheKey) (b : Blob) :
    fsGet (fsSet fs k b) k = some b := by
  simp [fsSet, fsGet]

theorem fsGet_set_ne (fs : FileSys) {k k' : CacheKey} (b : Blob) (h : k ≠ k') :
    fsGet (fsSet fs k b) k' = fsGet fs k' := by
  simp [fsSet, fsGet, h, fsGet_erase_ne fs h]

/-! ### Cache loading (load_hash_cache, load_pickle_cache, the groups-cache
load block of main)

Each loader returns the empty cache when the file is missing or when
unpickling raises (the source wraps pickle.load in try/except).  A
successfully unpickled value of an unexpected shape would be returned raw
by load_hash_cache/load_pickle_cache and make the run fail later on a dict
or set operation; those states are unreachable in the modelled runs (the
guard rewrites the directory caches first, and run-level theorems restrict
the working-directory caches to well-typed or corrupt contents), and the
loaders collapse them to the empty cache. -/

/-- load_hash_cache: the dict on a good pickle, the empty dict when the
file is missing or fails to deserialize. -/
def load_hash_cache : Option Blob → List ((String × Nat) × String)
  | some (.val (.hmap m)) => m
  | _ => []

/-- load_pickle_cache at the REVIEWED_CACHE call sites: the pickled set of
sorted path tuples, or the empty set when missing or corrupt. -/
def load_reviewed_cache : Option Blob → Finset (List String)
  | some (.val (.rset s)) => s
  | _ => ∅

/-- load_pickle_cache at the DELETED_CACHE call sites: the pickled set of
paths, or the empty set when missing or corrupt. -/
def load_deleted_cache : Option Blob → Finset String
  | some (.val (.dset s)) => s
  | _ => ∅

/-- The groups-cache load block at the top of main: a pickled
(groups, visited) pair is taken apart; a missing file or a failing
pickle.load yields empty groups and visited; any other successfully
unpickled value is assigned raw to the groups variable and then removed
entirely by the is_valid_group filter (its elements are not lists of
(path, hash) pairs), leaving empty groups and an empty visited set. -/
def load_groups_main : Option Blob →
    List (List (String × String)) × Finset String
  | some (.val (.gpair g v)) => (g, v)
  | _ => ([], ∅)

/-! ### The hashing loop (main, lines 522-543)

The in-memory hash cache is a python dict keyed by (path, mtime); we model
it as an insertion-ordered association list with dict assignment semantics
(replace in place when the key is present, append otherwise). -/

/-- Dict lookup on the hash cache. -/
def lookupHC : List ((String × Nat) × String) → (String × Nat) → Option String
  | [], _ => none
  | (k, v) :: rest, key => if k = key then some v else lookupHC rest key

/-- Dict assignment on the hash cache: replace the binding in place when
the key is present, append a new binding otherwise. -/
def insertHC : List ((String × Nat) × String) → (String × Nat) → String →
    List ((String × Nat) × String)
  | [], key, v => [(key, v)]
  | (k, w) :: rest, key, v =>
      if k = key then (key, v) :: rest else (k, w) :: insertHC rest key v

theorem lookupHC_insertHC_same (c : List ((String × Nat) × String))
    (key : String × Nat) (v : String) :
    lookupHC (insertHC c key v) key = some v := by
  induction c with
  | nil => simp [insertHC, lookupHC]
  | cons hd rest ih =>
    obtain ⟨k, w⟩ := hd
    by_cases hk : k = key
    · simp [insertHC, lookupHC, hk]
    · simp [insertHC, lookupHC, hk, ih]

theorem lookupHC_insertHC_ne (c : List ((String × Nat) × String))
    {key key' : String × Nat} (v : String) (h : key ≠ key') :
    lookupHC (insertHC c key v) key' = lookupHC c key' := by
  induction c with
  | nil => simp [insertHC, lookupHC, h]
  | cons hd rest ih =>
    obtain ⟨k, w⟩ := hd
    by_cases hk : k = key
    · subst hk
      simp [insertHC, lookupHC, h]
    · simp only [insertHC, if_neg hk, lookupHC]
      by_cases hk' : k = key'
      · simp [hk']
      · simp [hk', ih]

/-- State of the hashing loop: the in-memory hash cache, the dirty flag
(hash_cache_updated) and the accumulated (path, hash) list. -/
structure HCState where
  cache : List ((String × Nat) × String)
  dirty : Bool
  hashes : List (String × String)
deriving DecidableEq

/-- One iteration of the hashing loop of main for the file at (path,
mtime): a cache hit returns the cached hash with no computation; a miss
computes the hash (compute_hash, which yields none on an unreadable or
malformed image); a successful computation is stored under (path, mtime)
and marks the cache dirty; a failed computation leaves all state
unchanged and contributes no (path, hash) entry. -/
def hashLoopStep (compute : String → Option String) (st : HCState)
    (img : String × Nat) : HCState :=
  match lookupHC st.cache img with
  | some h => { st with hashes := st.hashes ++ [(img.1, h)] }
  | none =>
      match compute img.1 with
      | some h =>
          { cache := insertHC st.cache img h, dirty := true,
            hashes := st.hashes ++ [(img.1, h)] }
      | none => st

/-! ### Group-cache pruning and invalidation (main, lines 479-516) -/

/-- The set of files that are a member of some group:
set(img for group in groups for img, _ in group). -/
def groupFilesSet (groups : List (List (String × String))) : Finset String :=
  ((groups.map (fun g => g.map Prod.fst)).flatten).toFinset

theorem mem_groupFilesSet {groups : List (List (String × String))}
    {x : String} :
    x ∈ groupFilesSet groups ↔ ∃ g ∈ groups, ∃ pr ∈ g, Prod.fst pr = x := by
  simp only [groupFilesSet, List.mem_toFinset, List.mem_flatten, List.mem_map]
  constructor
  · rintro ⟨l, ⟨g, hg, rfl⟩, hx⟩
    rcases List.mem_map.mp hx with ⟨pr, hpr, rfl⟩
    exact ⟨g, hg, pr, hpr, rfl⟩
  · rintro ⟨g, hg, pr, hpr, rfl⟩
    exact ⟨g.map Prod.fst, ⟨g, hg, rfl⟩, List.mem_map.mpr ⟨pr, hpr, rfl⟩⟩

/-- Pruning of the cached groups (main, lines 479-506): members whose file
no longer exists on disk are dropped from each group, groups collapsing to
size at most one are dropped, the visited set is restricted to current
files, and the pruned state is written back; nothing happens when every
cached member still exists.  The Bool records whether the pruned state was
persisted. -/
def pruneStep (current : Finset String)
    (groups : List (List (String × String))) (visited : Finset String) :
    List (List (String × String)) × Finset String × Bool :=
  let deletedF := groupFilesSet groups \ current
  if deletedF = ∅ then (groups, visited, false)
  else
    ((groups.map (fun g => g.filter (fun x => x.1 ∈ current))).filter
        (fun g => 1 < g.length),
      visited.filter (fun x => x ∈ current), true)

/-- Stale-cache check (main, lines 507-516): when some file on disk was
not a member of any previously cached group, both the groups list and the
visited set are discarded and grouping restarts from empty; otherwise the
(pruned) cached state is kept.  `cached` is the pre-prune member set
(all_group_files in the source). -/
def staleCheck (current : Finset String) (cached : Finset String)
    (gs : List (List (String × String)) × Finset String) :
    List (List (String × String)) × Finset String :=
  if current \ cached = ∅ then gs else ([], ∅)

/-! ### The grouping pass (main, lines 546-577)

The pass is polymorphic in the type `H` of hash values; the source only
ever uses a hash through its string form str(h) (`hstr` here), both as the
index key and as the grouping criterion. -/

/-- The mutable grouping state: the list of groups and the visited set. -/
structure GState (H : Type) where
  groups : List (List (String × H))
  visited : Finset String

/-- The member paths of a group. -/
def pathsOf {H : Type} (g : List (String × H)) : List String :=
  g.map Prod.fst

/-- The hash-string index of ungrouped images (main, lines 553-560), as a
function from a hash string to the entries of `hashes` that are ungrouped
and have that string; python builds the same per-key lists in `hashes`
order. -/
def buildIdx {H : Type} (hstr : H → String) (hashes : List (String × H))
    (ungrouped : List String) : String → List (String × H) :=
  fun s => hashes.filter (fun ih => ih.1 ∈ ungrouped ∧ hstr ih.2 = s)

/-- The inner loop over hash_to_images[h_str] (main, lines 567-571): every
entry that is not visited and differs from the seed is appended to the
group and immediately marked visited. -/
def collectLoop (img1 : String) {H : Type} :
    List (String × H) → List (String × H) → Finset String →
    List (String × H) × Finset String
  | [], grp, vis => (grp, vis)
  | (img2, h2) :: rest, grp, vis =>
      if img2 ∉ vis ∧ img2 ≠ img1 then
        collectLoop img1 rest (grp ++ [(img2, h2)]) (insert img2 vis)
      else collectLoop img1 rest grp vis

/-- One iteration of the grouping loop (main, lines 561-577) for a seed
(img1, hash1): a visited seed is skipped; otherwise the group is seeded
with it, every unvisited other image with the same hash string is
collected, and a group with more than one member is recorded with all its
members marked visited. -/
def groupStep {H : Type} (hstr : H → String)
    (idx : String → List (String × H)) (st : GState H) (seed : String × H) :
    GState H :=
  if seed.1 ∈ st.visited then st
  else
    let c := collectLoop seed.1 (idx (hstr seed.2)) [seed] st.visited
    if 1 < c.1.length then
      { groups := st.groups ++ [c.1],
        visited := c.1.foldl (fun v x => insert x.1 v) c.2 }
    else { groups := st.groups, visited := c.2 }

/-- The whole grouping pass: fold the grouping step over the list of
ungrouped (path, hash) seeds. -/
def groupPass {H : Type} (hstr : H → String)
    (idx : String → List (String × H)) (seeds : List (String × H))
    (init : GState H) : GState H :=
  seeds.foldl (groupStep hstr idx) init

/-- Invariant of the grouping state: every member of a recorded group is
visited, and any two recorded groups sharing a member path are the same
group. -/
def GInv {H : Type} (st : GState H) : Prop :=
  (∀ g ∈ st.groups, ∀ p ∈ pathsOf g, p ∈ st.visited) ∧
  (∀ g1 ∈ st.groups, ∀ g2 ∈ st.groups,
      (∃ p, p ∈ pathsOf g1 ∧ p ∈ pathsOf g2) → g1 = g2)

/-! ### The cache integrity guard (ensure_cache_files_writable)

Modelled over the always-writable filesystem: the claims about the guard
condition on the append-open writability check and the sentinel
write/read self-test succeeding on every cache file, which is exactly this
model.  On every file of its list that exists, the guard writes the
sentinel dict (test mapped to 123), reads it back successfully, and then
rewrites hash-cache files (all files named .hash_cache_*.pkl, not only the
active one) with the empty dict, leaving the sentinel in every other
file. -/

/-- Whether a key names a .hash_cache_*.pkl file in the target directory
(the glob pattern of the guard). -/
def isHashKey : CacheKey → Bool
  | .hashCache _ => true
  | _ => false

/-- The guard's cache-file list: the four fixed names, every existing
.hash_cache_*.pkl file (glob), and the hash cache of the active hash
function when not already present. -/
def guardFileList (fs : FileSys) (hname : String) : List CacheKey :=
  let base := [CacheKey.groupsCache, CacheKey.groupsMeta,
    CacheKey.reviewedDir, CacheKey.deletedDir]
  let withGlob := base ++ (fs.filter (fun e => isHashKey e.1)).map Prod.fst
  if CacheKey.hashCache hname ∈ withGlob then withGlob
  else withGlob ++ [CacheKey.hashCache hname]

/-- Processing of one cache file by the guard: files that do not exist are
skipped (the active hash cache was created beforehand); an existing file
passes the append-open check, is overwritten with the sentinel test dict,
read back successfully, and, when it is a hash-cache file, rewritten with
the empty dict. -/
def guardStep (fs : FileSys) (k : CacheKey) : FileSys :=
  if (fsGet fs k).isSome then
    let fs1 := fsSet fs k (.val .testDict)
    if isHashKey k then fsSet fs1 k (.val (.hmap [])) else fs1
  else fs

/-- ensure_cache_files_writable (compare_images.py, lines 294-383) in the
run where every check passes: build the cache-file list, create the active
hash cache as an empty dict when it is missing, and run the sentinel
self-test on every existing file of the list. -/
def ensure_cache_files_writable (hname : String) (fs : FileSys) : FileSys :=
  let files := guardFileList fs hname
  let fs1 :=
    if fsGet fs (.hashCache hname) = none then
      fsSet fs (.hashCache hname) (.val (.hmap []))
    else fs
  files.foldl guardStep fs1

/-! ### The review workflow engine (show_group_interactive and the review
loop of main, lines 582-640) -/

/-- A review decision for one group, as produced by the interactive window
or the no-GUI short circuit.  `noAction` is the no-decision outcome (the
window was closed without any action). -/
inductive Decision where
  | keepOne (target : String)
  | deleteAll
  | keep
  | noAction
deriving DecidableEq

/-- Observable review events, in the order the source performs them. -/
inductive Event where
  | presentGroup (gid : List String)
  | addReviewed (gid : List String)
  | persistReviewed
  | moveFile (p : String)
  | deleteFile (p : String)
  | appendLog (p : String)
  | persistDeleted
deriving DecidableEq

/-- The decision effects: file relocation and file deletion. -/
def isEffect : Event → Bool
  | .moveFile _ => true
  | .deleteFile _ => true
  | _ => false

/-- Insert a string into an ascending sorted list. -/
def insertSorted (s : String) : List String → List String
  | [] => [s]
  | x :: xs => if x < s then x :: insertSorted s xs else s :: x :: xs

/-- Ascending sort of a list of strings (python sorted). -/
def sortStrings (l : List String) : List String :=
  l.foldl (fun acc s => insertSorted s acc) []

/-- The identity of a group for review tracking:
tuple(sorted(img for img, _ in group)). -/
def groupId (g : List (String × String)) : List String :=
  sortStrings (g.map Prod.fst)

/-- Stable insertion into a list sorted by resolution descending; an
element arriving later is placed after earlier elements of equal
resolution, matching python sorted(key=resolution, reverse=True). -/
def insertResDesc (resOf : String → Nat) (x : String × String) :
    List (String × String) → List (String × String)
  | [] => [x]
  | y :: ys =>
      if resOf x.1 ≤ resOf y.1 then y :: insertResDesc resOf x ys
      else x :: y :: ys

/-- Stable sort by pixel resolution descending (higher quality first). -/
def sortResDesc (resOf : String → Nat) (l : List (String × String)) :
    List (String × String) :=
  l.foldl (fun acc x => insertResDesc resOf x acc) []

/-- The canonical-ordering heuristic applied by show_group_interactive
before presentation (lines 200-218).  `resOf` models width times height
(zero when the image cannot be opened); `novOf` models the November-2023
marker test on EXIF date or filename (get_date plus the is_nov2023
checks).  For exactly two candidates, a marked candidate whose resolution
does not exceed the other is demoted to the right; otherwise candidates
are ordered by resolution descending. -/
def heuristicSort (resOf : String → Nat) (novOf : String → Bool)
    (group : List (String × String)) : List (String × String) :=
  match group with
  | [a, b] =>
      if novOf a.1 && decide (resOf a.1 ≤ resOf b.1) then [b, a]
      else if novOf b.1 && decide (resOf b.1 ≤ resOf a.1) then [a, b]
      else sortResDesc resOf [a, b]
  | g => sortResDesc resOf g

/-- The state threaded through the review loop. -/
structure RevState where
  reviewed : Finset (List String)
  deleted : Finset String
  fs : FileSys
  presented : List (List (String × String))
  deletedPaths : List String

/-- The lines of the append-only deletion log. -/
def logLines (fs : FileSys) : List String :=
  match fsGet fs .deletedLog with
  | some (.text ls) => ls
  | _ => []

/-- Append one path to the deletion log file. -/
def appendLogFs (fs : FileSys) (p : String) : FileSys :=
  fsSet fs .deletedLog (.text (logLines fs ++ [p]))

/-- Deletion of one group member (main, lines 610-618 / 624-633):
os.remove, record in the deleted cache set, append to the deletion log. -/
def applyDelete (st : RevState) (p : String) : RevState :=
  { st with deleted := insert p st.deleted,
            deletedPaths := st.deletedPaths ++ [p],
            fs := appendLogFs st.fs p }

/-- Application of a review decision to a group (main, lines 598-640),
together with the emitted events.  For keep_one, a target from the import
source is relocated first, then every other member is deleted and logged,
and the deleted cache is saved; delete_all deletes every member; keep and
no-decision change nothing.  In the modelled runs no import directory is
given, so `isImport` is constantly false and relocation does not alter the
target path. -/
def applyDecision (isImport : String → Bool) (st : RevState)
    (g : List (String × String)) : Decision → RevState × List Event
  | .keepOne t =>
      let ev1 := if isImport t then [Event.moveFile t] else []
      let victims := g.filter (fun x => x.1 ≠ t)
      let st2 := victims.foldl (fun s x => applyDelete s x.1) st
      let st3 := { st2 with
        fs := fsSet st2.fs .deletedCwd (.val (.dset st2.deleted)) }
      (st3, ev1 ++
        victims.flatMap (fun x => [Event.deleteFile x.1, Event.appendLog x.1])
        ++ [Event.persistDeleted])
  | .deleteAll =>
      let st2 := g.foldl (fun s x => applyDelete s x.1) st
      let st3 := { st2 with
        fs := fsSet st2.fs .deletedCwd (.val (.dset st2.deleted)) }
      (st3, g.flatMap (fun x => [Event.deleteFile x.1, Event.appendLog x.1])
        ++ [Event.persistDeleted])
  | .keep => (st, [])
  | .noAction => (st, [])

/-- Recording of a presented group: its identity is added to the reviewed
set, the reviewed cache is saved (save_pickle_cache on REVIEWED_CACHE),
and the group is recorded as presented. -/
def reviewMark (st : RevState) (g : List (String × String)) : RevState :=
  { st with
    reviewed := insert (groupId g) st.reviewed,
    fs := fsSet st.fs .reviewedCwd
      (.val (.rset (insert (groupId g) st.reviewed))),
    presented := st.presented ++ [g] }

/-- Processing of one group by the review loop (main, lines 586-640).  A
group whose identity is already reviewed is skipped entirely.  Otherwise:
in no-GUI mode the group identity is recorded as reviewed, the reviewed
cache is saved, and the decision is keep_one of the first stored member
(group[0][0]) with no window and no reordering; in GUI mode the sorted
group is presented, the decision `dec` of the operator (or of the
auto-approve timer, or no decision at all) is obtained, the group identity
is recorded as reviewed and the reviewed cache saved when the window
closes, and only then is the decision applied. -/
def reviewStep (noGui : Bool) (dec : List (String × String) → Decision)
    (resOf : String → Nat) (novOf : String → Bool)
    (isImport : String → Bool) (st : RevState)
    (g : List (String × String)) : RevState × List Event :=
  let gid := groupId g
  if gid ∈ st.reviewed then (st, [])
  else
    let st1 : RevState := reviewMark st g
    if noGui then
      let d := match g with
        | x :: _ => Decision.keepOne x.1
        | [] => Decision.noAction
      let r := applyDecision isImport st1 g d
      (r.1, [Event.addReviewed gid, Event.persistReviewed] ++ r.2)
    else
      let d := dec (heuristicSort resOf novOf g)
      let r := applyDecision isImport st1 g d
      (r.1, [Event.presentGroup gid, Event.addReviewed gid,
        Event.persistReviewed] ++ r.2)

/-- The review loop over all groups. -/
def reviewLoop (noGui : Bool) (dec : List (String × String) → Decision)
    (resOf : String → Nat) (novOf : String → Bool)
    (isImport : String → Bool)
    (groups : List (List (String × String))) (st0 : RevState) : RevState :=
  groups.foldl (fun st g => (reviewStep noGui dec resOf novOf isImport st g).1)
    st0

/-! ### The full run (main) -/

/-- The observable outcome of one run of main. -/
structure RunResult where
  fs : FileSys
  groups : List (List (String × String))
  presented : List (List (String × String))
  deletedPaths : List String
  reviewedFinal : Finset (List String)

/-- One run of main over the target directory, without an import
directory.  `imgs` is the scanned (path, mtime) list in enumeration
order, `hashOf` is the configured hash function on the file content at a
path (none on failure), `dec` is the decision the operator or timer
produces for a presented (sorted) group.  The steps follow main: integrity
guard, groups-cache load, pruning, stale check, hashing with the
per-function hash cache, incremental grouping, review loop. -/
def runMain (hname : String) (imgs : List (String × Nat))
    (hashOf : String → Option String) (noGui : Bool)
    (dec : List (String × String) → Decision)
    (resOf : String → Nat) (novOf : String → Bool) (fs0 : FileSys) :
    RunResult :=
  let fs1 := ensure_cache_files_writable hname fs0
  let paths := imgs.map Prod.fst
  let current : Finset String := paths.toFinset
  let gv0 := load_groups_main (fsGet fs1 .groupsCache)
  let pr := pruneStep current gv0.1 gv0.2
  let fs2 :=
    if pr.2.2 then fsSet fs1 .groupsCache (.val (.gpair pr.1 pr.2.1)) else fs1
  let cached := groupFilesSet gv0.1
  let fs3 := if current \ cached = ∅ then fs2 else fsErase fs2 .groupsCache
  let gv2 := staleCheck current cached (pr.1, pr.2.1)
  let hst := imgs.foldl (hashLoopStep hashOf)
    ⟨load_hash_cache (fsGet fs3 (.hashCache hname)), false, []⟩
  let fs4 :=
    if hst.dirty then fsSet fs3 (.hashCache hname) (.val (.hmap hst.cache))
    else fs3
  let grouped := groupFilesSet gv2.1
  let ungrouped := paths.filter (fun p => p ∉ grouped)
  let gfinal :=
    if 1 < ungrouped.length then
      groupPass id (buildIdx id hst.hashes ungrouped)
        (hst.hashes.filter (fun ih => ih.1 ∈ ungrouped))
        ⟨gv2.1, gv2.2⟩
    else ⟨gv2.1, gv2.2⟩
  let fs5 :=
    if 1 < ungrouped.length then
      fsSet fs4 .groupsCache (.val (.gpair gfinal.groups gfinal.visited))
    else fs4
  let stR := reviewLoop noGui dec resOf novOf (fun _ => false) gfinal.groups
    ⟨load_reviewed_cache (fsGet fs5 .reviewedCwd),
      load_deleted_cache (fsGet fs5 .deletedCwd), fs5, [], []⟩
  { fs := stR.fs, groups := gfinal.groups, presented := stR.presented,
    deletedPaths := stR.deletedPaths, reviewedFinal := stR.reviewed }

/-! ### The cache savers under permission failures (save_pickle_cache,
save_hash_cache)

For claims about permission errors the filesystem carries a write mode per
file: `writable` (open for writing succeeds), `readOnlyClearable` (open
raises PermissionError, but os.chmod with S_IWRITE succeeds and makes the
file writable), `permDenied` (open raises PermissionError and chmod does
not help). -/

/-- The write mode of a file. -/
inductive FMode where
  | writable
  | readOnlyClearable
  | permDenied
deriving DecidableEq

/-- A filesystem with contents and write modes, as total maps on keys. -/
structure PermFS where
  content : CacheKey → Option PVal
  mode : CacheKey → FMode

/-- Pointwise update of a content map. -/
def updC (f : CacheKey → Option PVal) (k : CacheKey) (v : Option PVal) :
    CacheKey → Option PVal :=
  fun x => if x = k then v else f x

/-- Pointwise update of a mode map. -/
def updM (f : CacheKey → FMode) (k : CacheKey) (m : FMode) :
    CacheKey → FMode :=
  fun x => if x = k then m else f x

/-- save_pickle_cache (compare_images.py, lines 122-137): write the pickle;
on PermissionError, with no repair attempt, retry at the fallback location
HOME/.photosort_cache_(name); when the fallback also fails, print the
failure and return.  The Bool is true when the saver aborts the run, which
this saver never does. -/
def save_pickle_cache (fs : PermFS) (p : CacheKey) (v : PVal) :
    PermFS × Bool :=
  match fs.mode p with
  | .writable => (⟨updC fs.content p (some v), fs.mode⟩, false)
  | _ =>
      let fp := CacheKey.homeFallback p
      match fs.mode fp with
      | .writable => (⟨updC fs.content fp (some v), fs.mode⟩, false)
      | _ => (fs, false)

/-- save_hash_cache (compare_images.py, lines 149-163): when the file
exists, first clear a read-only attribute with os.chmod, then write; any
PermissionError (or any other failure) aborts the run with sys.exit(1),
with no fallback attempt.  The Bool is true when the saver aborts. -/
def save_hash_cache (fs : PermFS) (p : CacheKey) (v : PVal) :
    PermFS × Bool :=
  if (fs.content p).isSome then
    match fs.mode p with
    | .writable => (⟨updC fs.content p (some v), fs.mode⟩, false)
    | .readOnlyClearable =>
        (⟨updC fs.content p (some v), updM fs.mode p .writable⟩, false)
    | .permDenied => (fs, true)
  else
    match fs.mode p with
    | .writable => (⟨updC fs.content p (some v), fs.mode⟩, false)
    | _ => (fs, true)

/-- The inline groups-cache save at the prune site (main, lines 490-506),
which does not go through save_pickle_cache: when the file exists its
read-only attribute is cleared with os.chmod before writing; a
PermissionError (raised by chmod or by the open) is caught and the pair is
written to the fallback location HOME/.photosort_cache_.groups_cache.pkl
instead; a failure of the fallback write is printed and the run continues.
The Bool is true when the run aborts, which this site never does under
permission failures. -/
def groups_cache_prune_save (fs : PermFS) (v : PVal) : PermFS × Bool :=
  let p := CacheKey.groupsCache
  if (fs.content p).isSome then
    match fs.mode p with
    | .writable => (⟨updC fs.content p (some v), fs.mode⟩, false)
    | .readOnlyClearable =>
        (⟨updC fs.content p (some v), updM fs.mode p .writable⟩, false)
    | .permDenied =>
        match fs.mode (CacheKey.homeFallback p) with
        | .writable =>
            (⟨updC fs.content (CacheKey.homeFallback p) (some v), fs.mode⟩,
              false)
        | _ => (fs, false)
  else
    match fs.mode p with
    | .writable => (⟨updC fs.content p (some v), fs.mode⟩, false)
    | _ =>
        match fs.mode (CacheKey.homeFallback p) with
        | .writable =>
            (⟨updC fs.content (CacheKey.homeFallback p) (some v), fs.mode⟩,
              false)
        | _ => (fs, false)

/-- The inline groups-cache write inside the grouping loop (main, lines
576-577): a bare open-and-dump with no exception handling and no chmod, so
a PermissionError there propagates out of main and crashes the run, with
no repair and no fallback.  The Bool is true when the run aborts. -/
def groups_cache_loop_save (fs : PermFS) (v : PVal) : PermFS × Bool :=
  match fs.mode CacheKey.groupsCache with
  | .writable =>
      (⟨updC fs.content CacheKey.groupsCache (some v), fs.mode⟩, false)
  | _ => (fs, true)

/-- The content the guard leaves in an existing cache file: the empty dict
for hash-cache files, the sentinel test dict for every other file. -/
def guardVal (k : CacheKey) : Blob :=
  .val (if isHashKey k then .hmap [] else .testDict)

/-- The grouping state a run computes when it starts from empty caches:
hash every image, then group all images from scratch.  Because the
integrity guard empties the hash cache and overwrites the groups cache on
every run, every run of main computes exactly this state (see
runMain_groups_scratch). -/
def scratchGState (imgs : List (String × Nat))
    (hashOf : String → Option String) : GState String :=
  let paths := imgs.map Prod.fst
  let hst := imgs.foldl (hashLoopStep hashOf) ⟨[], false, []⟩
  let ungrouped := paths.filter (fun p => p ∉ (∅ : Finset String))
  if 1 < ungrouped.length then
    groupPass id (buildIdx id hst.hashes ungrouped)
      (hst.hashes.filter (fun ih => ih.1 ∈ ungrouped)) ⟨[], ∅⟩
  else ⟨[], ∅⟩

/-! ### Concrete filesystem states used as inputs of closed theorems -/

/-- A pre-run cache state with a cached group pair, a reviewed set, a
deleted set, the active hash cache (phash) and a second hash cache
(ahash), all non-empty. -/
def fsC1 : FileSys :=
  [(.groupsCache, .val (.gpair [[("a", "h"), ("b", "h")]] {"a", "b"})),
    (.reviewedDir, .val (.rset {["a", "b"]})),
    (.deletedDir, .val (.dset {"z"})),
    (.hashCache "phash", .val (.hmap [(("a", 1), "h")])),
    (.hashCache "ahash", .val (.hmap [(("a", 1), "g")]))]

/-- A moded filesystem where the existing phash hash cache is permission
denied while its fallback location is writable. -/
def fs9a : PermFS :=
  ⟨fun k => if k = CacheKey.hashCache "phash" then some (.hmap [(("a", 1), "h")])
    else none,
    fun k => if k = CacheKey.hashCache "phash" then .permDenied else .writable⟩

/-- A moded filesystem where the reviewed cache carries a clearable
read-only attribute and everything else is writable. -/
def fs9b : PermFS :=
  ⟨fun k => if k = CacheKey.reviewedCwd then some (.rset ∅) else none,
    fun k => if k = CacheKey.reviewedCwd then .readOnlyClearable
      else .writable⟩

/-- A moded filesystem where every location, the fallback included, is
permission denied. -/
def fs9c : PermFS := ⟨fun _ => none, fun _ => .permDenied⟩

/-- A moded filesystem where the existing groups cache is permission
denied, its home fallback is writable, and everything else is permission
denied. -/
def fs9d : PermFS :=
  ⟨fun k => if k = CacheKey.groupsCache then some (.gpair [] ∅) else none,
    fun k => if k = CacheKey.homeFallback CacheKey.groupsCache
      then .writable else .permDenied⟩

/-- A moded filesystem where the existing groups cache carries a clearable
read-only attribute and everything else is writable. -/
def fs9e : PermFS :=
  ⟨fun k => if k = CacheKey.groupsCache then some (.gpair [] ∅) else none,
    fun k => if k = CacheKey.groupsCache then .readOnlyClearable
      else .writable⟩

/-! ## Theorems -/

/-- Claim C8: for every cache file (hash cache, reviewed cache, deleted
cache, group cache) that exists but fails to deserialize, loading yields
the empty cache (empty mapping, empty set, or empty groups and visited
set); the loaders return instead of raising, and a run over a fully
corrupted cache state still proceeds and produces its groups, so a
corrupted cache file never aborts the run. -/
theorem C8_corrupt_cache_loads_empty :
    load_hash_cache (some .corrupt) = [] ∧
    load_reviewed_cache (some .corrupt) = (∅ : Finset (List String)) ∧
    load_deleted_cache (some .corrupt) = (∅ : Finset String) ∧
    load_groups_main (some .corrupt)
      = (([] : List (List (String × String))), (∅ : Finset String)) ∧
    (runMain "phash" [("a.jpg", 1), ("b.jpg", 1)] (fun _ => some "h") true
        (fun _ => Decision.keep) (fun _ => 0) (fun _ => false)
        [(.groupsCache, .corrupt), (.reviewedCwd, .corrupt),
          (.deletedCwd, .corrupt), (.hashCache "phash", .corrupt)]).groups
      = [[("a.jpg", "h"), ("b.jpg", "h")]] := by
  refine ⟨rfl, rfl, rfl, rfl, ?_⟩
  decide

/-- Claim C4: whenever some file on disk is not a member of any previously
cached group, the stale check discards the whole cached state: groups and
visited are both reset to empty and grouping restarts from scratch, with
no partial merge of new files into cached groups.  `cached` is the
pre-prune member set of the loaded groups, exactly as in the source. -/
theorem C4_new_files_invalidate (current : Finset String)
    (groups0 : List (List (String × String))) (visited0 : Finset String)
    (h : ∃ f ∈ current, f ∉ groupFilesSet groups0) :
    staleCheck current (groupFilesSet groups0)
      ((pruneStep current groups0 visited0).1,
        (pruneStep current groups0 visited0).2.1)
      = (([] : List (List (String × String))), (∅ : Finset String)) := by
  obtain ⟨f, hf, hnf⟩ := h
  have hne : current \ groupFilesSet groups0 ≠ ∅ := by
    intro he
    have : f ∈ current \ groupFilesSet groups0 := Finset.mem_sdiff.mpr ⟨hf, hnf⟩
    simp [he] at this
  simp [staleCheck, hne]

/-- Witness for C4 at a concrete input. -/
theorem C4_new_files_invalidate_witness :
    (∃ f ∈ ({"a.jpg"} : Finset String),
        f ∉ groupFilesSet [[("x", "h"), ("y", "h")]]) ∧
    staleCheck {"a.jpg"} (groupFilesSet [[("x", "h"), ("y", "h")]])
      ((pruneStep {"a.jpg"} [[("x", "h"), ("y", "h")]] {"x", "y"}).1,
        (pruneStep {"a.jpg"} [[("x", "h"), ("y", "h")]] {"x", "y"}).2.1)
      = (([] : List (List (String × String))), (∅ : Finset String)) :=
  ⟨by decide,
    C4_new_files_invalidate {"a.jpg"} [[("x", "h"), ("y", "h")]] {"x", "y"}
      (by decide)⟩

/-- Claim C5: in the hashing loop, a (path, mtime) key present in the hash
cache is answered from the cache with no recomputation (the step does not
depend on the hash function at all); on a miss with a successful
computation the result is stored under (path, mtime) and the cache is
marked dirty; and an existing entry of the same path under any older mtime
is never evicted, only superseded: processing the path at a new mtime
leaves the old entry present while adding the new one. -/
theorem C5_hash_cache_step (compute compute' : String → Option String)
    (st : HCState) (p : String) (m : Nat) :
    (∀ h, lookupHC st.cache (p, m) = some h →
        (hashLoopStep compute st (p, m)).cache = st.cache ∧
        (hashLoopStep compute st (p, m)).hashes = st.hashes ++ [(p, h)] ∧
        hashLoopStep compute st (p, m) = hashLoopStep compute' st (p, m)) ∧
    (lookupHC st.cache (p, m) = none → ∀ h, compute p = some h →
        (hashLoopStep compute st (p, m)).cache = insertHC st.cache (p, m) h ∧
        (hashLoopStep compute st (p, m)).dirty = true ∧
        lookupHC (hashLoopStep compute st (p, m)).cache (p, m) = some h) ∧
    (∀ t1 h1, lookupHC st.cache (p, t1) = some h1 →
        lookupHC (hashLoopStep compute st (p, m)).cache (p, t1) = some h1) := by
  refine ⟨?_, ?_, ?_⟩
  · intro h hh
    simp [hashLoopStep, hh]
  · intro hmiss h hc
    simp [hashLoopStep, hmiss, hc, lookupHC_insertHC_same]
  · intro t1 h1 h1h
    rcases hm : lookupHC st.cache (p, m) with _ | hv
    · rcases hc : compute p with _ | hv2
      · simp [hashLoopStep, hm, hc, h1h]
      · by_cases ht : ((p, m) : String × Nat) = (p, t1)
        · rw [ht] at hm
          rw [hm] at h1h
          exact absurd h1h (by simp)
        · simp [hashLoopStep, hm, hc, lookupHC_insertHC_ne _ _ ht, h1h]
    · simp [hashLoopStep, hm, h1h]

/-- Witness for C5: the spec scenario where c.jpg has a stale entry at
mtime 1 and is processed at mtime 2; the theorem is applied to show the
new entry is stored and the old entry survives. -/
theorem C5_hash_cache_step_witness :
    (lookupHC [(("c.jpg", 1), "h1")] ("c.jpg", 2) = none ∧
      (fun _ => some "h2") "c.jpg" = some "h2" ∧
      lookupHC [(("c.jpg", 1), "h1")] ("c.jpg", 1) = some "h1") ∧
    (hashLoopStep (fun _ => some "h2")
        ⟨[(("c.jpg", 1), "h1")], false, []⟩ ("c.jpg", 2)).dirty = true ∧
    lookupHC (hashLoopStep (fun _ => some "h2")
        ⟨[(("c.jpg", 1), "h1")], false, []⟩ ("c.jpg", 2)).cache ("c.jpg", 2)
      = some "h2" ∧
    lookupHC (hashLoopStep (fun _ => some "h2")
        ⟨[(("c.jpg", 1), "h1")], false, []⟩ ("c.jpg", 2)).cache ("c.jpg", 1)
      = some "h1" :=
  ⟨⟨by decide, rfl, by decide⟩,
    ((C5_hash_cache_step (fun _ => some "h2") (fun _ => some "h2")
        ⟨[(("c.jpg", 1), "h1")], false, []⟩ "c.jpg" 2).2.1
      (by decide) "h2" rfl).2.1,
    ((C5_hash_cache_step (fun _ => some "h2") (fun _ => some "h2")
        ⟨[(("c.jpg", 1), "h1")], false, []⟩ "c.jpg" 2).2.1
      (by decide) "h2" rfl).2.2,
    (C5_hash_cache_step (fun _ => some "h2") (fun _ => some "h2")
        ⟨[(("c.jpg", 1), "h1")], false, []⟩ "c.jpg" 2).2.2
      1 "h1" (by decide)⟩

/-- Claim C6: when at least one cached group member no longer exists on
disk, pruning removes every missing member from its group (every surviving
member exists on disk), drops every group reduced to size at most one
(every surviving group has more than one member), drops all removed
members from the visited set (the pruned visited set contains only
on-disk members of the old visited set), and persists the pruned state. -/
theorem C6_prune_missing_members (current : Finset String)
    (groups : List (List (String × String))) (visited : Finset String)
    (h : ∃ g ∈ groups, ∃ x ∈ g, Prod.fst x ∉ current) :
    (∀ g' ∈ (pruneStep current groups visited).1, ∀ x ∈ g',
        Prod.fst x ∈ current) ∧
    (∀ g' ∈ (pruneStep current groups visited).1, 1 < g'.length) ∧
    (∀ p, p ∉ current → p ∉ (pruneStep current groups visited).2.1) ∧
    (∀ p ∈ (pruneStep current groups visited).2.1, p ∈ visited) ∧
    (pruneStep current groups visited).2.2 = true := by
  obtain ⟨g, hg, x, hx, hxc⟩ := h
  have hmem : Prod.fst x ∈ groupFilesSet groups :=
    mem_groupFilesSet.mpr ⟨g, hg, x, hx, rfl⟩
  have hne : groupFilesSet groups \ current ≠ ∅ := by
    intro he
    have : Prod.fst x ∈ groupFilesSet groups \ current :=
      Finset.mem_sdiff.mpr ⟨hmem, hxc⟩
    simp [he] at this
  have hstep : pruneStep current groups visited =
      ((groups.map (fun g => g.filter (fun x => x.1 ∈ current))).filter
          (fun g => 1 < g.length),
        visited.filter (fun x => x ∈ current), true) := by
    simp [pruneStep, hne]
  refine ⟨?_, ?_, ?_, ?_, ?_⟩
  · intro g' hg' x' hx'
    rw [hstep] at hg'
    rcases List.mem_filter.mp hg' with ⟨hg'm, _⟩
    rcases List.mem_map.mp hg'm with ⟨g0, _, rfl⟩
    have := List.mem_filter.mp hx'
    simpa using this.2
  · intro g' hg'
    rw [hstep] at hg'
    have := List.mem_filter.mp hg'
    simpa using this.2
  · intro p hp hpm
    rw [hstep] at hpm
    have := Finset.mem_filter.mp hpm
    exact hp this.2
  · intro p hp
    rw [hstep] at hp
    exact (Finset.mem_filter.mp hp).1
  · rw [hstep]

/-- Witness for C6: group member y no longer on disk; the group collapses
and is dropped, y leaves the visited set, and the state is persisted. -/
theorem C6_prune_missing_members_witness :
    (∃ g ∈ [[("x", "h"), ("y", "h")]], ∃ x ∈ g,
        Prod.fst x ∉ ({"x"} : Finset String)) ∧
    (pruneStep {"x"} [[("x", "h"), ("y", "h")]] {"x", "y"}).1 = [] ∧
    (pruneStep {"x"} [[("x", "h"), ("y", "h")]] {"x", "y"}).2.1 = {"x"} ∧
    (pruneStep {"x"} [[("x", "h"), ("y", "h")]] {"x", "y"}).2.2 = true :=
  ⟨by decide, by decide, by decide,
    (C6_prune_missing_members {"x"} [[("x", "h"), ("y", "h")]] {"x", "y"}
      (by decide)).2.2.2.2⟩

/-- Claim C1 (code bug): the claim states that a guard run whose self-test
passes everywhere leaves the group, reviewed and deleted cache contents
unchanged and recreates only the active hash cache empty.  The code
instead overwrites every existing cache file with the sentinel test dict
and restores only hash-cache files (all of them, not only the active one)
as empty dicts, destroying the cached groups, reviewed set and deleted set
it had promised to keep (the module docstring advertises persistent
caches precisely to avoid re-reviewing).  This theorem evaluates the guard
on `fsC1`: every non-hash cache ends up holding the sentinel instead of
its prior value, and the non-active ahash cache is also emptied. -/
theorem C1_guard_destroys_caches :
    fsGet (ensure_cache_files_writable "phash" fsC1) .groupsCache
      = some (.val .testDict) ∧
    fsGet (ensure_cache_files_writable "phash" fsC1) .reviewedDir
      = some (.val .testDict) ∧
    fsGet (ensure_cache_files_writable "phash" fsC1) .deletedDir
      = some (.val .testDict) ∧
    fsGet (ensure_cache_files_writable "phash" fsC1) (.hashCache "phash")
      = some (.val (.hmap [])) ∧
    fsGet (ensure_cache_files_writable "phash" fsC1) (.hashCache "ahash")
      = some (.val (.hmap [])) ∧
    fsGet fsC1 .groupsCache
      = some (.val (.gpair [[("a", "h"), ("b", "h")]] {"a", "b"})) ∧
    Blob.val .testDict
      ≠ Blob.val (.gpair [[("a", "h"), ("b", "h")]] {"a", "b"}) := by
  decide

/-- Claim C9 (counterexample): the claim says every saver, on permission
error, first repairs, then falls back, and aborts only when the fallback
also fails.  Concretely: save_hash_cache on a permission-denied hash cache
aborts immediately although the fallback location is writable and is never
written (first three conjuncts); save_pickle_cache on a merely read-only
cache file attempts no repair (the read-only mode persists and the
original file is untouched) and goes straight to the fallback (next three
conjuncts); and save_pickle_cache does not abort even when the fallback
also fails (last conjunct). -/
theorem C9_counterexample :
    (save_hash_cache fs9a (.hashCache "phash") (.hmap [])).2 = true ∧
    (save_hash_cache fs9a (.hashCache "phash") (.hmap [])).1.content
      (.homeFallback (.hashCache "phash")) = none ∧
    fs9a.mode (.homeFallback (.hashCache "phash")) = .writable ∧
    (save_pickle_cache fs9b .reviewedCwd (.rset {["a"]})).1.mode .reviewedCwd
      = .readOnlyClearable ∧
    (save_pickle_cache fs9b .reviewedCwd (.rset {["a"]})).1.content
      .reviewedCwd = some (.rset ∅) ∧
    (save_pickle_cache fs9b .reviewedCwd (.rset {["a"]})).1.content
      (.homeFallback .reviewedCwd) = some (.rset {["a"]}) ∧
    (save_pickle_cache fs9c .deletedCwd (.dset ∅)).2 = false := by
  refine ⟨rfl, rfl, rfl, rfl, ?_, ?_, rfl⟩ <;> decide

theorem homeFallback_ne (p : CacheKey) : CacheKey.homeFallback p ≠ p := by
  induction p with
  | groupsCache => intro h; exact CacheKey.noConfusion h
  | groupsMeta => intro h; exact CacheKey.noConfusion h
  | reviewedDir => intro h; exact CacheKey.noConfusion h
  | deletedDir => intro h; exact CacheKey.noConfusion h
  | hashCache hname => intro h; exact CacheKey.noConfusion h
  | reviewedCwd => intro h; exact CacheKey.noConfusion h
  | deletedCwd => intro h; exact CacheKey.noConfusion h
  | deletedLog => intro h; exact CacheKey.noConfusion h
  | homeFallback base ih => intro h; exact ih (by injection h)

/-- Claim C9 (amended): no saver follows repair-then-fallback-then-abort,
and the four save sites behave differently.  save_pickle_cache (the
reviewed and deleted caches) never aborts the run; on a permission error
it attempts no repair (mode and original file are left untouched) and
falls back to writing at the home fallback location when that is writable.
save_hash_cache clears a clearable read-only attribute of an existing
file before writing and then succeeds; on an unclearable permission denial
it aborts immediately, touching nothing and attempting no fallback.  The
groups cache is saved inline, not through save_pickle_cache: the
prune-site write never aborts — it clears the read-only attribute of an
existing file before writing (then succeeding in place), and on an
unclearable permission denial it falls back to the home location and
continues even when the fallback also fails; the per-iteration write in
the grouping loop has no exception handling, so any permission error
there aborts the run with no repair and no fallback. -/
theorem C9_amended_savers (fs : PermFS) (p : CacheKey) (v : PVal) :
    (save_pickle_cache fs p v).2 = false ∧
    (fs.mode p ≠ .writable →
      (save_pickle_cache fs p v).1.mode p = fs.mode p ∧
      (save_pickle_cache fs p v).1.content p = fs.content p ∧
      (fs.mode (.homeFallback p) = .writable →
        (save_pickle_cache fs p v).1.content (.homeFallback p) = some v)) ∧
    ((fs.content p).isSome → fs.mode p = .readOnlyClearable →
      (save_hash_cache fs p v).2 = false ∧
      (save_hash_cache fs p v).1.content p = some v) ∧
    (fs.mode p = .permDenied → save_hash_cache fs p v = (fs, true)) ∧
    (groups_cache_prune_save fs v).2 = false ∧
    ((fs.content .groupsCache).isSome →
      fs.mode .groupsCache = .readOnlyClearable →
      (groups_cache_prune_save fs v).1.content .groupsCache = some v ∧
      (groups_cache_prune_save fs v).1.mode .groupsCache = .writable) ∧
    (fs.mode .groupsCache = .permDenied →
      fs.mode (.homeFallback .groupsCache) = .writable →
      (groups_cache_prune_save fs v).1.content (.homeFallback .groupsCache)
        = some v) ∧
    (fs.mode .groupsCache ≠ .writable →
      groups_cache_loop_save fs v = (fs, true)) ∧
    (fs.mode .groupsCache = .writable →
      groups_cache_loop_save fs v
        = (⟨updC fs.content .groupsCache (some v), fs.mode⟩, false)) := by
  have hpf : p ≠ CacheKey.homeFallback p :=
    fun h => homeFallback_ne p h.symm
  refine ⟨?_, ?_, ?_, ?_, ?_, ?_, ?_, ?_, ?_⟩
  · rcases hm : fs.mode p with _ | _ | _ <;>
      simp [save_pickle_cache, hm] <;>
      rcases hf : fs.mode (.homeFallback p) with _ | _ | _ <;>
      simp [hf]
  · intro hnw
    rcases hm : fs.mode p with _ | _ | _
    · exact absurd hm hnw
    · rcases hf : fs.mode (.homeFallback p) with _ | _ | _ <;>
        simp [save_pickle_cache, hm, hf, updC, hpf]
    · rcases hf : fs.mode (.homeFallback p) with _ | _ | _ <;>
        simp [save_pickle_cache, hm, hf, updC, hpf]
  · intro hsome hro
    simp [save_hash_cache, hsome, hro, updC]
  · intro hpd
    rcases hsome : (fs.content p).isSome with _ | _ <;>
      simp [save_hash_cache, hsome, hpd]
  · rcases hsome : (fs.content CacheKey.groupsCache).isSome with _ | _ <;>
      rcases hm : fs.mode CacheKey.groupsCache with _ | _ | _ <;>
      simp [groups_cache_prune_save, hsome, hm] <;>
      rcases hf : fs.mode (.homeFallback .groupsCache) with _ | _ | _ <;>
      simp [hf]
  · intro hsome hro
    simp [groups_cache_prune_save, hsome, hro, updC, updM]
  · intro hpd hf
    rcases hsome : (fs.content CacheKey.groupsCache).isSome with _ | _ <;>
      simp [groups_cache_prune_save, hsome, hpd, hf, updC]
  · intro hnw
    rcases hm : fs.mode CacheKey.groupsCache with _ | _ | _
    · exact absurd hm hnw
    · simp [groups_cache_loop_save, hm]
    · simp [groups_cache_loop_save, hm]
  · intro hw
    simp [groups_cache_loop_save, hw]

/-- Witness for C9 (amended) at concrete inputs: the read-only reviewed
cache is saved without abort and lands at the fallback location; the
permission-denied hash cache save aborts; the prune-site groups-cache
save repairs a read-only file in place without aborting and, when the
file is permission denied, writes the fallback without aborting; and the
grouping-loop groups-cache write aborts on the permission-denied file. -/
theorem C9_amended_savers_witness :
    (fs9b.mode .reviewedCwd ≠ FMode.writable ∧
      fs9b.mode (.homeFallback .reviewedCwd) = .writable ∧
      fs9a.mode (.hashCache "phash") = .permDenied ∧
      (fs9e.content .groupsCache).isSome ∧
      fs9e.mode .groupsCache = .readOnlyClearable ∧
      fs9d.mode .groupsCache = .permDenied ∧
      fs9d.mode (.homeFallback .groupsCache) = .writable) ∧
    (save_pickle_cache fs9b .reviewedCwd (.dset ∅)).2 = false ∧
    (save_pickle_cache fs9b .reviewedCwd (.dset ∅)).1.content
      (.homeFallback .reviewedCwd) = some (.dset ∅) ∧
    save_hash_cache fs9a (.hashCache "phash") (.hmap [])
      = (fs9a, true) ∧
    (groups_cache_prune_save fs9e (.gpair [] ∅)).2 = false ∧
    (groups_cache_prune_save fs9e (.gpair [] ∅)).1.content .groupsCache
      = some (.gpair [] ∅) ∧
    (groups_cache_prune_save fs9d (.gpair [] ∅)).1.content
      (.homeFallback .groupsCache) = some (.gpair [] ∅) ∧
    groups_cache_loop_save fs9d (.gpair [] ∅) = (fs9d, true) :=
  ⟨⟨by decide, by decide, by decide, by decide, by decide, by decide,
      by decide⟩,
    (C9_amended_savers fs9b .reviewedCwd (.dset ∅)).1,
    ((C9_amended_savers fs9b .reviewedCwd (.dset ∅)).2.1 (by decide)).2.2
      (by decide),
    (C9_amended_savers fs9a (.hashCache "phash") (.hmap [])).2.2.2.1
      (by decide),
    (C9_amended_savers fs9e .groupsCache (.gpair [] ∅)).2.2.2.2.1,
    ((C9_amended_savers fs9e .groupsCache (.gpair [] ∅)).2.2.2.2.2.1
      (by decide) (by decide)).1,
    (C9_amended_savers fs9d .groupsCache (.gpair [] ∅)).2.2.2.2.2.2.1
      (by decide) (by decide),
    (C9_amended_savers fs9d .groupsCache (.gpair [] ∅)).2.2.2.2.2.2.2.1
      (by decide)⟩

theorem foldlDelete_deletedPaths (l : List (String × String))
    (st : RevState) :
    (l.foldl (fun s x => applyDelete s x.1) st).deletedPaths
      = st.deletedPaths ++ l.map Prod.fst := by
  induction l generalizing st with
  | nil => simp
  | cons hd tl ih =>
    rw [List.foldl_cons, ih]
    simp [applyDelete]

theorem applyDecision_keepOne_deletedPaths (imp : String → Bool)
    (st : RevState) (g : List (String × String)) (t : String) :
    (applyDecision imp st g (.keepOne t)).1.deletedPaths
      = st.deletedPaths ++ (g.filter (fun x => x.1 ≠ t)).map Prod.fst := by
  simp [applyDecision, foldlDelete_deletedPaths]

/-- Claim C2 (counterexample): the claim says the no-GUI engine resolves
every group to keep_one of the first candidate under the canonical
ordering heuristic, and in particular keeps a.jpg (2000 by 1500) over
b.jpg (1000 by 750).  In the run where the scan enumerates b.jpg before
a.jpg, the stored group is (b.jpg, a.jpg); the heuristic would order a.jpg
first (resolution descending), but the engine keeps b.jpg and deletes
a.jpg, because the no-GUI branch takes group[0][0] without ever applying
the heuristic. -/
theorem C2_counterexample :
    (runMain "phash" [("b.jpg", 1), ("a.jpg", 1)] (fun _ => some "h") true
        (fun _ => Decision.keep)
        (fun p => if p = "a.jpg" then 3000000 else 750000) (fun _ => false)
        []).groups = [[("b.jpg", "h"), ("a.jpg", "h")]] ∧
    (runMain "phash" [("b.jpg", 1), ("a.jpg", 1)] (fun _ => some "h") true
        (fun _ => Decision.keep)
        (fun p => if p = "a.jpg" then 3000000 else 750000) (fun _ => false)
        []).deletedPaths = ["a.jpg"] ∧
    heuristicSort (fun p => if p = "a.jpg" then 3000000 else 750000)
        (fun _ => false) [("b.jpg", "h"), ("a.jpg", "h")]
      = [("a.jpg", "h"), ("b.jpg", "h")] ∧
    ("a.jpg" : String) ≠ "b.jpg" := by
  decide

/-- Claim C2 (amended): in no-GUI mode every not-yet-reviewed group is
resolved to keep_one of the group's first stored member (group[0][0], the
order in which grouping recorded the members), with the canonical-ordering
heuristic never applied; every other member is deleted and appended to the
deletion log.  In the example scenario the kept image is a.jpg exactly
when a.jpg precedes b.jpg in the scan order, in which case b.jpg is
deleted and logged (last two conjuncts). -/
theorem C2_noGui_first_member :
    (∀ (dec : List (String × String) → Decision) (resOf : String → Nat)
        (novOf : String → Bool) (imp : String → Bool) (st : RevState)
        (x : String × String) (rest : List (String × String)),
        groupId (x :: rest) ∉ st.reviewed →
        (reviewStep true dec resOf novOf imp st (x :: rest)).1.deletedPaths
          = st.deletedPaths
            ++ ((x :: rest).filter (fun y => y.1 ≠ x.1)).map Prod.fst) ∧
    (runMain "phash" [("a.jpg", 1), ("b.jpg", 1)] (fun _ => some "h") true
        (fun _ => Decision.keep) (fun _ => 0) (fun _ => false)
        []).deletedPaths = ["b.jpg"] ∧
    logLines (runMain "phash" [("a.jpg", 1), ("b.jpg", 1)]
        (fun _ => some "h") true (fun _ => Decision.keep) (fun _ => 0)
        (fun _ => false) []).fs = ["b.jpg"] := by
  refine ⟨?_, by decide, by decide⟩
  intro dec resOf novOf imp st x rest h
  simp [reviewStep, h, applyDecision_keepOne_deletedPaths, reviewMark]

/-- Witness for C2 (amended) at a concrete group. -/
theorem C2_noGui_first_member_witness :
    groupId [("a.jpg", "h"), ("b.jpg", "h")] ∉
      (⟨∅, ∅, [], [], []⟩ : RevState).reviewed ∧
    (reviewStep true (fun _ => Decision.keep) (fun _ => 0) (fun _ => false)
        (fun _ => false) ⟨∅, ∅, [], [], []⟩
        [("a.jpg", "h"), ("b.jpg", "h")]).1.deletedPaths
      = (⟨∅, ∅, [], [], []⟩ : RevState).deletedPaths
        ++ ([("a.jpg", "h"), ("b.jpg", "h")].filter
            (fun y => y.1 ≠ "a.jpg")).map Prod.fst :=
  ⟨by decide,
    C2_noGui_first_member.1 (fun _ => Decision.keep) (fun _ => 0)
      (fun _ => false) (fun _ => false) ⟨∅, ∅, [], [], []⟩ ("a.jpg", "h")
      [("b.jpg", "h")] (by decide)⟩

theorem foldlDelete_reviewed (l : List (String × String)) (st : RevState) :
    (l.foldl (fun s x => applyDelete s x.1) st).reviewed = st.reviewed := by
  induction l generalizing st with
  | nil => rfl
  | cons hd tl ih =>
    rw [List.foldl_cons, ih]
    rfl

theorem applyDecision_reviewed (imp : String → Bool) (st : RevState)
    (g : List (String × String)) (d : Decision) :
    (applyDecision imp st g d).1.reviewed = st.reviewed := by
  cases d <;> simp [applyDecision, foldlDelete_reviewed]

/-- Claim C10: for every group processed by the review loop, in GUI mode
as in no-GUI mode and for every decision outcome (a no-decision close
included), the group identity is added to the reviewed set and the
reviewed cache is saved before any decision effect: the emitted event
trace splits into a prefix that contains the add-reviewed and
persist-reviewed events and no deletion or relocation effect, followed by
the effects; afterwards the identity is in the reviewed set.  Conversely a
group whose identity is already reviewed is skipped outright (no
presentation, no events, no state change), so a group whose presentation
completed is never re-presented once the persisted reviewed set is
reloaded, even if its decision effects were never applied. -/
theorem C10_reviewed_persisted_before_effects (noGui : Bool)
    (dec : List (String × String) → Decision) (resOf : String → Nat)
    (novOf : String → Bool) (imp : String → Bool) (st : RevState)
    (g : List (String × String)) :
    (groupId g ∉ st.reviewed →
      (∃ pre post,
          (reviewStep noGui dec resOf novOf imp st g).2 = pre ++ post ∧
          Event.persistReviewed ∈ pre ∧
          Event.addReviewed (groupId g) ∈ pre ∧
          ∀ e ∈ pre, isEffect e = false) ∧
      groupId g ∈ (reviewStep noGui dec resOf novOf imp st g).1.reviewed) ∧
    (groupId g ∈ st.reviewed →
      reviewStep noGui dec resOf novOf imp st g = (st, [])) := by
  constructor
  · intro h
    cases noGui
    case false =>
      constructor
      · refine ⟨[Event.presentGroup (groupId g),
          Event.addReviewed (groupId g), Event.persistReviewed],
          (applyDecision imp (reviewMark st g) g
            (dec (heuristicSort resOf novOf g))).2, ?_, ?_, ?_, ?_⟩
        · simp [reviewStep, h]
        · simp
        · simp
        · intro e he
          simp only [List.mem_cons, List.not_mem_nil, or_false] at he
          rcases he with rfl | rfl | rfl <;> rfl
      · simp [reviewStep, h, applyDecision_reviewed, reviewMark]
    case true =>
      constructor
      · cases g with
        | nil =>
          refine ⟨[Event.addReviewed (groupId []), Event.persistReviewed],
            (applyDecision imp (reviewMark st []) [] Decision.noAction).2,
            ?_, ?_, ?_, ?_⟩
          · simp [reviewStep, h]
          · simp
          · simp
          · intro e he
            simp only [List.mem_cons, List.not_mem_nil, or_false] at he
            rcases he with rfl | rfl <;> rfl
        | cons x rest =>
          refine ⟨[Event.addReviewed (groupId (x :: rest)),
            Event.persistReviewed],
            (applyDecision imp (reviewMark st (x :: rest)) (x :: rest)
              (Decision.keepOne x.1)).2, ?_, ?_, ?_, ?_⟩
          · simp [reviewStep, h]
          · simp
          · simp
          · intro e he
            simp only [List.mem_cons, List.not_mem_nil, or_false] at he
            rcases he with rfl | rfl <;> rfl
      · simp [reviewStep, h, applyDecision_reviewed, reviewMark]
  · intro h
    simp [reviewStep, h]

/-- Witness for C10 at a concrete group in GUI mode with a no-decision
outcome. -/
theorem C10_reviewed_persisted_before_effects_witness :
    groupId [("a.jpg", "h"), ("b.jpg", "h")] ∉
      (⟨∅, ∅, [], [], []⟩ : RevState).reviewed ∧
    groupId [("a.jpg", "h"), ("b.jpg", "h")] ∈
      (reviewStep false (fun _ => Decision.noAction) (fun _ => 0)
        (fun _ => false) (fun _ => false) ⟨∅, ∅, [], [], []⟩
        [("a.jpg", "h"), ("b.jpg", "h")]).1.reviewed :=
  ⟨by decide,
    ((C10_reviewed_persisted_before_effects false (fun _ => Decision.noAction)
        (fun _ => 0) (fun _ => false) (fun _ => false) ⟨∅, ∅, [], [], []⟩
        [("a.jpg", "h"), ("b.jpg", "h")]).1 (by decide)).2⟩

theorem collect_vis_mono {H : Type} (img1 : String) (l : List (String × H))
    (grp : List (String × H)) (vis : Finset String) :
    vis ⊆ (collectLoop img1 l grp vis).2 := by
  induction l generalizing grp vis with
  | nil => simp [collectLoop]
  | cons hd tl ih =>
    obtain ⟨img2, h2⟩ := hd
    by_cases hc : img2 ∉ vis ∧ img2 ≠ img1
    · simp only [collectLoop, if_pos hc]
      exact (Finset.subset_insert _ _).trans (ih _ _)
    · simp only [collectLoop, if_neg hc]
      exact ih _ _

theorem collect_paths {H : Type} (img1 : String) (l : List (String × H))
    (grp : List (String × H)) (vis : Finset String) :
    ∀ p ∈ pathsOf (collectLoop img1 l grp vis).1,
      p ∈ pathsOf grp ∨ p ∉ vis := by
  induction l generalizing grp vis with
  | nil =>
    intro p hp
    left
    simpa [collectLoop] using hp
  | cons hd tl ih =>
    obtain ⟨img2, h2⟩ := hd
    intro p hp
    by_cases hc : img2 ∉ vis ∧ img2 ≠ img1
    · simp only [collectLoop, if_pos hc] at hp
      rcases ih _ _ p hp with hin | hnin
      · simp only [pathsOf, List.map_append, List.mem_append] at hin
        rcases hin with hin | hin
        · exact Or.inl hin
        · simp only [List.map_cons, List.map_nil, List.mem_singleton] at hin
          subst hin
          exact Or.inr hc.1
      · exact Or.inr fun hv => hnin (Finset.mem_insert_of_mem hv)
    · simp only [collectLoop, if_neg hc] at hp
      exact ih _ _ p hp

theorem foldInsert_mono {H : Type} (grp : List (String × H))
    (v : Finset String) :
    v ⊆ grp.foldl (fun a x => insert x.1 a) v := by
  induction grp generalizing v with
  | nil => simp
  | cons hd tl ih =>
    exact (Finset.subset_insert _ _).trans (ih _)

theorem foldInsert_mem {H : Type} (grp : List (String × H))
    (v : Finset String) :
    ∀ p ∈ pathsOf grp, p ∈ grp.foldl (fun a x => insert x.1 a) v := by
  induction grp generalizing v with
  | nil => simp [pathsOf]
  | cons hd tl ih =>
    intro p hp
    simp only [pathsOf, List.map_cons, List.mem_cons] at hp
    rcases hp with rfl | hp
    · exact foldInsert_mono tl _ (Finset.mem_insert_self _ _)
    · exact ih _ p hp

theorem groupStep_inv {H : Type} (hstr : H → String)
    (idx : String → List (String × H)) (st : GState H) (seed : String × H)
    (h : GInv st) : GInv (groupStep hstr idx st seed) := by
  by_cases hs : seed.1 ∈ st.visited
  · simpa [groupStep, hs] using h
  · simp only [groupStep, if_neg hs]
    have hvm : st.visited ⊆
        (collectLoop seed.1 (idx (hstr seed.2)) [seed] st.visited).2 :=
      collect_vis_mono _ _ _ _
    have hps : ∀ p ∈ pathsOf
        (collectLoop seed.1 (idx (hstr seed.2)) [seed] st.visited).1,
        p ∉ st.visited := by
      intro p hp
      rcases collect_paths seed.1 _ [seed] st.visited p hp with hin | hnin
      · simp only [pathsOf, List.map_cons, List.map_nil,
          List.mem_singleton] at hin
        subst hin
        exact hs
      · exact hnin
    by_cases hl : 1 <
        (collectLoop seed.1 (idx (hstr seed.2)) [seed] st.visited).1.length
    · simp only [if_pos hl]
      constructor
      · intro g hg p hp
        rcases List.mem_append.mp hg with hgo | hgn
        · exact foldInsert_mono _ _ (hvm (h.1 g hgo p hp))
        · simp only [List.mem_singleton] at hgn
          subst hgn
          exact foldInsert_mem _ _ p hp
      · rintro g1 hg1 g2 hg2 ⟨p, hp1, hp2⟩
        rcases List.mem_append.mp hg1 with h1o | h1n <;>
          rcases List.mem_append.mp hg2 with h2o | h2n
        · exact h.2 g1 h1o g2 h2o ⟨p, hp1, hp2⟩
        · simp only [List.mem_singleton] at h2n
          subst h2n
          exact absurd (h.1 g1 h1o p hp1) (hps p hp2)
        · simp only [List.mem_singleton] at h1n
          subst h1n
          exact absurd (h.1 g2 h2o p hp2) (hps p hp1)
        · simp only [List.mem_singleton] at h1n h2n
          rw [h1n, h2n]
    · simp only [if_neg hl]
      constructor
      · intro g hg p hp
        exact hvm (h.1 g hg p hp)
      · exact fun g1 hg1 g2 hg2 hp => h.2 g1 hg1 g2 hg2 hp

theorem groupPass_inv {H : Type} (hstr : H → String)
    (idx : String → List (String × H)) (seeds : List (String × H))
    (init : GState H) (h : GInv init) : GInv (groupPass hstr idx seeds init) := by
  induction seeds generalizing init with
  | nil => exact h
  | cons s ss ih => exact ih _ (groupStep_inv hstr idx init s h)

/-- Claim C7: grouping is an equivalence on hash-string equality.  For any
grouping pass starting from a state satisfying the grouping invariant (in
particular from the empty state the engine reaches before any fresh
grouping), if images A and B are placed in a common group and B and C are
placed in a common group, then A and C are in the same group: the pass
never places one image in two distinct groups, because every recorded
member is marked visited and visited images are neither re-seeded nor
re-collected. -/
theorem C7_grouping_equivalence {H : Type} (hstr : H → String)
    (idx : String → List (String × H)) (seeds : List (String × H))
    (init : GState H) (hInv : GInv init) (G1 G2 : List (String × H))
    (A B C : String)
    (h1 : G1 ∈ (groupPass hstr idx seeds init).groups)
    (h2 : G2 ∈ (groupPass hstr idx seeds init).groups)
    (hA : A ∈ pathsOf G1) (hB1 : B ∈ pathsOf G1) (hB2 : B ∈ pathsOf G2)
    (hC : C ∈ pathsOf G2) :
    ∃ G ∈ (groupPass hstr idx seeds init).groups,
      A ∈ pathsOf G ∧ C ∈ pathsOf G := by
  have heq : G1 = G2 :=
    (groupPass_inv hstr idx seeds init hInv).2 G1 h1 G2 h2 ⟨B, hB1, hB2⟩
  exact ⟨G1, h1, hA, heq ▸ hC⟩

/-- Witness for C7: three images sharing one hash string end up in one
common group of the computed pass. -/
theorem C7_grouping_equivalence_witness :
    [("a", "h"), ("b", "h"), ("c", "h")] ∈
      (groupPass id
        (buildIdx id [("a", "h"), ("b", "h"), ("c", "h")] ["a", "b", "c"])
        [("a", "h"), ("b", "h"), ("c", "h")]
        ⟨[], ∅⟩).groups ∧
    ∃ G ∈ (groupPass id
        (buildIdx id [("a", "h"), ("b", "h"), ("c", "h")] ["a", "b", "c"])
        [("a", "h"), ("b", "h"), ("c", "h")]
        ⟨[], ∅⟩).groups, "a" ∈ pathsOf G ∧ "c" ∈ pathsOf G :=
  ⟨by decide,
    C7_grouping_equivalence id
      (buildIdx id [("a", "h"), ("b", "h"), ("c", "h")] ["a", "b", "c"])
      [("a", "h"), ("b", "h"), ("c", "h")] ⟨[], ∅⟩
      ⟨fun g hg => absurd hg (List.not_mem_nil g),
        fun g1 hg1 => absurd hg1 (List.not_mem_nil g1)⟩
      [("a", "h"), ("b", "h"), ("c", "h")]
      [("a", "h"), ("b", "h"), ("c", "h")] "a" "b" "c"
      (by decide) (by decide) (by decide) (by decide) (by decide)
      (by decide)⟩

theorem fsGet_ite (c : Prop) [Decidable c] (a b : FileSys) (k : CacheKey) :
    fsGet (if c then a else b) k = if c then fsGet a k else fsGet b k := by
  split <;> rfl

theorem guardStep_get_ne (fs : FileSys) {k k' : CacheKey} (h : k ≠ k') :
    fsGet (guardStep fs k) k' = fsGet fs k' := by
  by_cases hp : (fsGet fs k).isSome = true
  · by_cases hh : isHashKey k = true
    · simp only [guardStep, hp, if_true, hh]
      rw [fsGet_set_ne _ _ h, fsGet_set_ne _ _ h]
    · simp only [guardStep, hp, if_true, hh]
      rw [if_neg (by simp), fsGet_set_ne _ _ h]
  · simp [guardStep, hp]

theorem guardStep_get_self (fs : FileSys) (k : CacheKey) :
    fsGet (guardStep fs k) k
      = if (fsGet fs k).isSome then some (guardVal k) else none := by
  rcases ho : fsGet fs k with _ | b
  · simp [guardStep, ho]
  · by_cases hh : isHashKey k = true <;>
      simp [guardStep, ho, hh, guardVal, fsGet_set_same]

theorem guard_fold_not_mem (l : List CacheKey) (fs : FileSys) (k : CacheKey)
    (h : k ∉ l) : fsGet (l.foldl guardStep fs) k = fsGet fs k := by
  induction l generalizing fs with
  | nil => rfl
  | cons a l' ih =>
    rw [List.mem_cons] at h
    push_neg at h
    obtain ⟨h1, h2⟩ := h
    simp only [List.foldl_cons]
    rw [ih _ h2, guardStep_get_ne fs (fun he => h1 he.symm)]

theorem guard_fold_mem (l : List CacheKey) (fs : FileSys) (k : CacheKey)
    (h : k ∈ l) :
    fsGet (l.foldl guardStep fs) k
      = if (fsGet fs k).isSome then some (guardVal k) else none := by
  induction l generalizing fs with
  | nil => exact absurd h (List.not_mem_nil k)
  | cons a l' ih =>
    simp only [List.foldl_cons]
    by_cases hak : k = a
    · subst hak
      by_cases hm : k ∈ l'
      · rw [ih _ hm, guardStep_get_self]
        rcases ho : fsGet fs k with _ | b <;> simp [ho]
      · rw [guard_fold_not_mem _ _ _ hm, guardStep_get_self]
    · rw [List.mem_cons] at h
      rcases h with h | h
      · exact absurd h hak
      · rw [ih _ h, guardStep_get_ne fs (fun he => hak he.symm)]

theorem groupsCache_mem_guardFileList (fs : FileSys) (hname : String) :
    CacheKey.groupsCache ∈ guardFileList fs hname := by
  simp only [guardFileList]
  split
  · exact List.mem_append_left _ (by simp)
  · exact List.mem_append_left _ (List.mem_append_left _ (by simp))

theorem activeHash_mem_guardFileList (fs : FileSys) (hname : String) :
    CacheKey.hashCache hname ∈ guardFileList fs hname := by
  simp only [guardFileList]
  split
  · next hmem => exact hmem
  · exact List.mem_append_right _ (by simp)

theorem not_mem_guardFileList_reviewedCwd (fs : FileSys) (hname : String) :
    CacheKey.reviewedCwd ∉ guardFileList fs hname := by
  intro h
  have hbase : CacheKey.reviewedCwd ∉
      ([CacheKey.groupsCache, CacheKey.groupsMeta, CacheKey.reviewedDir,
        CacheKey.deletedDir]
        ++ (fs.filter (fun e => isHashKey e.1)).map Prod.fst) := by
    intro hb
    rcases List.mem_append.mp hb with hb | hb
    · simp at hb
    · rcases List.mem_map.mp hb with ⟨e, he, hek⟩
      have hke := (List.mem_filter.mp he).2
      rw [hek] at hke
      simp [isHashKey] at hke
  simp only [guardFileList] at h
  split at h
  · exact hbase h
  · rcases List.mem_append.mp h with h | h
    · exact hbase h
    · simp at h

theorem guard_get_reviewedCwd (hname : String) (fs : FileSys) :
    fsGet (ensure_cache_files_writable hname fs) .reviewedCwd
      = fsGet fs .reviewedCwd := by
  simp only [ensure_cache_files_writable]
  rw [guard_fold_not_mem _ _ _ (not_mem_guardFileList_reviewedCwd fs hname)]
  split
  · exact fsGet_set_ne _ _ (fun h => CacheKey.noConfusion h)
  · rfl

theorem guard_get_groupsCache (hname : String) (fs : FileSys) :
    fsGet (ensure_cache_files_writable hname fs) .groupsCache
      = if (fsGet fs .groupsCache).isSome then some (.val .testDict)
        else none := by
  simp only [ensure_cache_files_writable]
  rw [guard_fold_mem _ _ _ (groupsCache_mem_guardFileList fs hname)]
  have h1 : fsGet (if fsGet fs (.hashCache hname) = none then
      fsSet fs (.hashCache hname) (.val (.hmap [])) else fs) .groupsCache
      = fsGet fs .groupsCache := by
    split
    · exact fsGet_set_ne _ _ (fun h => CacheKey.noConfusion h)
    · rfl
  rw [h1]
  simp [guardVal, isHashKey]

theorem guard_get_activeHash (hname : String) (fs : FileSys) :
    fsGet (ensure_cache_files_writable hname fs) (.hashCache hname)
      = some (.val (.hmap [])) := by
  simp only [ensure_cache_files_writable]
  rw [guard_fold_mem _ _ _ (activeHash_mem_guardFileList fs hname)]
  have h1 : (fsGet (if fsGet fs (.hashCache hname) = none then
      fsSet fs (.hashCache hname) (.val (.hmap [])) else fs)
        (.hashCache hname)).isSome = true := by
    split
    · simp [fsGet_set_same]
    · next hne =>
        rcases ho : fsGet fs (.hashCache hname) with _ | b
        · exact absurd ho hne
        · simp [ho]
  rw [if_pos h1]
  simp [guardVal, isHashKey]

theorem groupFilesSet_nil :
    groupFilesSet ([] : List (List (String × String))) = ∅ := rfl

theorem fsGet_erase_groupsCache_hash (fs : FileSys) (hname : String) :
    fsGet (fsErase fs .groupsCache) (.hashCache hname)
      = fsGet fs (.hashCache hname) :=
  fsGet_erase_ne _ (fun h => CacheKey.noConfusion h)

/-- Every run of main computes the from-scratch grouping: the guard has
overwritten the groups cache (so it loads as empty) and emptied the hash
cache, pruning and the stale check keep the empty state, and grouping runs
over all scanned images with freshly computed hashes. -/
theorem runMain_groups_scratch (hname : String) (imgs : List (String × Nat))
    (hashOf : String → Option String) (noGui : Bool)
    (dec : List (String × String) → Decision) (resOf : String → Nat)
    (novOf : String → Bool) (fs0 : FileSys) :
    (runMain hname imgs hashOf noGui dec resOf novOf fs0).groups
      = (scratchGState imgs hashOf).groups := by
  simp only [runMain, scratchGState]
  rw [guard_get_groupsCache]
  have hload : load_groups_main
      (if (fsGet fs0 .groupsCache).isSome then some (.val .testDict)
        else none)
      = (([] : List (List (String × String))), (∅ : Finset String)) := by
    split <;> rfl
  rw [hload]
  have hprune : pruneStep ((imgs.map Prod.fst).toFinset)
      ([] : List (List (String × String))) (∅ : Finset String)
      = ([], ∅, false) := by
    simp [pruneStep, groupFilesSet]
  rw [hprune]
  simp only [staleCheck, groupFilesSet_nil, Finset.sdiff_empty,
    Finset.empty_sdiff, ite_self, Bool.false_eq_true, if_false]
  have hhash : ∀ (c : Prop) (inst : Decidable c),
      load_hash_cache (fsGet
        (@ite _ c inst (ensure_cache_files_writable hname fs0)
          (fsErase (ensure_cache_files_writable hname fs0) .groupsCache))
        (.hashCache hname)) = [] := by
    intro c inst
    rw [fsGet_ite, fsGet_erase_groupsCache_hash, guard_get_activeHash,
      ite_self]
    rfl
  rw [hhash]

theorem reviewStep_skip (noGui : Bool)
    (dec : List (String × String) → Decision) (resOf : String → Nat)
    (novOf : String → Bool) (imp : String → Bool) (st : RevState)
    (g : List (String × String)) (h : groupId g ∈ st.reviewed) :
    reviewStep noGui dec resOf novOf imp st g = (st, []) := by
  simp [reviewStep, h]

theorem reviewLoop_nil (noGui : Bool)
    (dec : List (String × String) → Decision) (resOf : String → Nat)
    (novOf : String → Bool) (imp : String → Bool) (st0 : RevState) :
    reviewLoop noGui dec resOf novOf imp [] st0 = st0 := rfl

theorem reviewLoop_cons (noGui : Bool)
    (dec : List (String × String) → Decision) (resOf : String → Nat)
    (novOf : String → Bool) (imp : String → Bool)
    (g : List (String × String)) (gs : List (List (String × String)))
    (st0 : RevState) :
    reviewLoop noGui dec resOf novOf imp (g :: gs) st0
      = reviewLoop noGui dec resOf novOf imp gs
          (reviewStep noGui dec resOf novOf imp st0 g).1 := rfl

theorem foldlDelete_fs_get (l : List (String × String)) (st : RevState)
    (k : CacheKey) (hk : CacheKey.deletedLog ≠ k) :
    fsGet (l.foldl (fun s x => applyDelete s x.1) st).fs k
      = fsGet st.fs k := by
  induction l generalizing st with
  | nil => rfl
  | cons hd tl ih =>
    rw [List.foldl_cons, ih]
    simp [applyDelete, appendLogFs, fsGet_set_ne _ _ hk]

theorem applyDecision_fs_get (imp : String → Bool) (st : RevState)
    (g : List (String × String)) (d : Decision) (k : CacheKey)
    (hk1 : CacheKey.deletedLog ≠ k) (hk2 : CacheKey.deletedCwd ≠ k) :
    fsGet (applyDecision imp st g d).1.fs k = fsGet st.fs k := by
  cases d <;>
    simp [applyDecision, fsGet_set_ne _ _ hk2, foldlDelete_fs_get _ _ _ hk1]

theorem applyDecision_fs_reviewedCwd (imp : String → Bool) (st : RevState)
    (g : List (String × String)) (d : Decision) :
    fsGet (applyDecision imp st g d).1.fs .reviewedCwd
      = fsGet st.fs .reviewedCwd :=
  applyDecision_fs_get imp st g d _ (fun h => CacheKey.noConfusion h)
    (fun h => CacheKey.noConfusion h)

theorem reviewStep_reviewed_eq (noGui : Bool)
    (dec : List (String × String) → Decision) (resOf : String → Nat)
    (novOf : String → Bool) (imp : String → Bool) (st : RevState)
    (g : List (String × String)) (h : groupId g ∉ st.reviewed) :
    (reviewStep noGui dec resOf novOf imp st g).1.reviewed
      = insert (groupId g) st.reviewed := by
  cases noGui <;> simp [reviewStep, h, applyDecision_reviewed, reviewMark]

theorem reviewStep_fs_reviewedCwd (noGui : Bool)
    (dec : List (String × String) → Decision) (resOf : String → Nat)
    (novOf : String → Bool) (imp : String → Bool) (st : RevState)
    (g : List (String × String)) (h : groupId g ∉ st.reviewed) :
    fsGet (reviewStep noGui dec resOf novOf imp st g).1.fs .reviewedCwd
      = some (.val (.rset (insert (groupId g) st.reviewed))) := by
  cases noGui <;>
    simp [reviewStep, h, applyDecision_fs_reviewedCwd, reviewMark,
      fsGet_set_same]

theorem reviewStep_reviewed_load (noGui : Bool)
    (dec : List (String × String) → Decision) (resOf : String → Nat)
    (novOf : String → Bool) (imp : String → Bool) (st : RevState)
    (g : List (String × String))
    (h : load_reviewed_cache (fsGet st.fs .reviewedCwd) = st.reviewed) :
    load_reviewed_cache
        (fsGet (reviewStep noGui dec resOf novOf imp st g).1.fs .reviewedCwd)
      = (reviewStep noGui dec resOf novOf imp st g).1.reviewed := by
  by_cases hr : groupId g ∈ st.reviewed
  · rw [reviewStep_skip noGui dec resOf novOf imp st g hr]
    exact h
  · rw [reviewStep_fs_reviewedCwd noGui dec resOf novOf imp st g hr,
      reviewStep_reviewed_eq noGui dec resOf novOf imp st g hr]
    rfl

theorem reviewStep_reviewed_mono (noGui : Bool)
    (dec : List (String × String) → Decision) (resOf : String → Nat)
    (novOf : String → Bool) (imp : String → Bool) (st : RevState)
    (g : List (String × String)) :
    st.reviewed ⊆ (reviewStep noGui dec resOf novOf imp st g).1.reviewed := by
  by_cases hr : groupId g ∈ st.reviewed
  · rw [reviewStep_skip noGui dec resOf novOf imp st g hr]
  · rw [reviewStep_reviewed_eq noGui dec resOf novOf imp st g hr]
    exact Finset.subset_insert _ _

theorem reviewStep_gid_mem (noGui : Bool)
    (dec : List (String × String) → Decision) (resOf : String → Nat)
    (novOf : String → Bool) (imp : String → Bool) (st : RevState)
    (g : List (String × String)) :
    groupId g ∈ (reviewStep noGui dec resOf novOf imp st g).1.reviewed := by
  by_cases hr : groupId g ∈ st.reviewed
  · rw [reviewStep_skip noGui dec resOf novOf imp st g hr]
    exact hr
  · rw [reviewStep_reviewed_eq noGui dec resOf novOf imp st g hr]
    exact Finset.mem_insert_self _ _

theorem reviewLoop_reviewed_mono (noGui : Bool)
    (dec : List (String × String) → Decision) (resOf : String → Nat)
    (novOf : String → Bool) (imp : String → Bool)
    (gs : List (List (String × String))) (st0 : RevState) :
    st0.reviewed ⊆ (reviewLoop noGui dec resOf novOf imp gs st0).reviewed := by
  induction gs generalizing st0 with
  | nil => exact fun x hx => hx
  | cons g gs ih =>
    rw [reviewLoop_cons]
    exact (reviewStep_reviewed_mono noGui dec resOf novOf imp st0 g).trans
      (ih _)

theorem reviewLoop_gid_mem (noGui : Bool)
    (dec : List (String × String) → Decision) (resOf : String → Nat)
    (novOf : String → Bool) (imp : String → Bool)
    (gs : List (List (String × String))) (st0 : RevState) :
    ∀ g ∈ gs, groupId g ∈
      (reviewLoop noGui dec resOf novOf imp gs st0).reviewed := by
  induction gs generalizing st0 with
  | nil => exact fun g hg => absurd hg (List.not_mem_nil g)
  | cons a gs ih =>
    intro g hg
    rw [reviewLoop_cons]
    rcases List.mem_cons.mp hg with rfl | hg
    · exact reviewLoop_reviewed_mono noGui dec resOf novOf imp gs _
        (reviewStep_gid_mem noGui dec resOf novOf imp st0 g)
    · exact ih _ g hg

theorem reviewLoop_reviewed_load (noGui : Bool)
    (dec : List (String × String) → Decision) (resOf : String → Nat)
    (novOf : String → Bool) (imp : String → Bool)
    (gs : List (List (String × String))) (st0 : RevState)
    (h0 : load_reviewed_cache (fsGet st0.fs .reviewedCwd) = st0.reviewed) :
    load_reviewed_cache
        (fsGet (reviewLoop noGui dec resOf novOf imp gs st0).fs .reviewedCwd)
      = (reviewLoop noGui dec resOf novOf imp gs st0).reviewed := by
  induction gs generalizing st0 with
  | nil => exact h0
  | cons g gs ih =>
    rw [reviewLoop_cons]
    exact ih _ (reviewStep_reviewed_load noGui dec resOf novOf imp st0 g h0)

theorem reviewLoop_all_reviewed (noGui : Bool)
    (dec : List (String × String) → Decision) (resOf : String → Nat)
    (novOf : String → Bool) (imp : String → Bool)
    (gs : List (List (String × String))) (st0 : RevState)
    (h : ∀ g ∈ gs, groupId g ∈ st0.reviewed) :
    reviewLoop noGui dec resOf novOf imp gs st0 = st0 := by
  induction gs with
  | nil => rfl
  | cons a gs ih =>
    rw [reviewLoop_cons,
      reviewStep_skip noGui dec resOf novOf imp st0 a
        (h a (List.mem_cons_self a gs))]
    exact ih (fun g hg => h g (List.mem_cons_of_mem a hg))

theorem runMain_reviewedFinal_load (hname : String)
    (imgs : List (String × Nat)) (hashOf : String → Option String)
    (noGui : Bool) (dec : List (String × String) → Decision)
    (resOf : String → Nat) (novOf : String → Bool) (fs0 : FileSys) :
    load_reviewed_cache
        (fsGet (runMain hname imgs hashOf noGui dec resOf novOf fs0).fs
          .reviewedCwd)
      = (runMain hname imgs hashOf noGui dec resOf novOf fs0).reviewedFinal := by
  simp only [runMain]
  exact reviewLoop_reviewed_load _ _ _ _ _ _ _ rfl

theorem runMain_groups_reviewed (hname : String)
    (imgs : List (String × Nat)) (hashOf : String → Option String)
    (noGui : Bool) (dec : List (String × String) → Decision)
    (resOf : String → Nat) (novOf : String → Bool) (fs0 : FileSys) :
    ∀ g ∈ (runMain hname imgs hashOf noGui dec resOf novOf fs0).groups,
      groupId g ∈
        (runMain hname imgs hashOf noGui dec resOf novOf fs0).reviewedFinal := by
  simp only [runMain]
  intro g hg
  exact reviewLoop_gid_mem _ _ _ _ _ _ _ g hg

theorem fsGet_set_groupsCache_rev (fs : FileSys) (b : Blob) :
    fsGet (fsSet fs .groupsCache b) .reviewedCwd = fsGet fs .reviewedCwd :=
  fsGet_set_ne _ _ (fun h => CacheKey.noConfusion h)

theorem fsGet_set_hash_rev (fs : FileSys) (hname : String) (b : Blob) :
    fsGet (fsSet fs (.hashCache hname) b) .reviewedCwd
      = fsGet fs .reviewedCwd :=
  fsGet_set_ne _ _ (fun h => CacheKey.noConfusion h)

theorem fsGet_erase_groupsCache_rev (fs : FileSys) :
    fsGet (fsErase fs .groupsCache) .reviewedCwd = fsGet fs .reviewedCwd :=
  fsGet_erase_ne _ (fun h => CacheKey.noConfusion h)

/-- A run whose groups are all already present in the persisted reviewed
set of the starting filesystem presents nothing: every group is skipped. -/
theorem runMain_presented_empty (hname : String) (imgs : List (String × Nat))
    (hashOf : String → Option String) (noGui : Bool)
    (dec : List (String × String) → Decision) (resOf : String → Nat)
    (novOf : String → Bool) (fs0 : FileSys)
    (h : ∀ g ∈ (runMain hname imgs hashOf noGui dec resOf novOf fs0).groups,
        groupId g ∈ load_reviewed_cache (fsGet fs0 .reviewedCwd)) :
    (runMain hname imgs hashOf noGui dec resOf novOf fs0).presented = [] := by
  simp only [runMain] at h ⊢
  rw [reviewLoop_all_reviewed]
  intro g hg
  simp only [fsGet_ite, fsGet_set_groupsCache_rev, fsGet_set_hash_rev,
    fsGet_erase_groupsCache_rev, ite_self, guard_get_reviewedCwd]
  exact h g hg

/-- Claim C3: for two consecutive runs of main over the same target
directory with an unchanged file set (the same scanned (path, mtime) list
and the same content hashes, which holds when the first run deleted
nothing — the hypothesis) and with the cache files between the runs
exactly as the first run left them, the second run produces exactly the
same similarity groups as the first, and no group it presents was reviewed
in the first run (every previously reviewed group is skipped; in fact
every group of the second run is skipped).  Both runs regroup from scratch
deterministically, because the integrity guard resets the groups and hash
caches at the start of every run, and the second run skips every group via
the persisted reviewed set, which the guard does not touch at its
working-directory location. -/
theorem C3_rerun_same_groups_skips_reviewed (hname : String)
    (imgs : List (String × Nat)) (hashOf : String → Option String)
    (noGui : Bool) (dec1 dec2 : List (String × String) → Decision)
    (resOf : String → Nat) (novOf : String → Bool) (fs0 : FileSys)
    (_hnd : (runMain hname imgs hashOf noGui dec1 resOf novOf
        fs0).deletedPaths = []) :
    (runMain hname imgs hashOf noGui dec2 resOf novOf
        (runMain hname imgs hashOf noGui dec1 resOf novOf fs0).fs).groups
      = (runMain hname imgs hashOf noGui dec1 resOf novOf fs0).groups ∧
    ∀ g ∈ (runMain hname imgs hashOf noGui dec2 resOf novOf
        (runMain hname imgs hashOf noGui dec1 resOf novOf fs0).fs).presented,
      groupId g ∉
        (runMain hname imgs hashOf noGui dec1 resOf novOf
          fs0).reviewedFinal := by
  constructor
  · rw [runMain_groups_scratch, runMain_groups_scratch]
  · have hpres : (runMain hname imgs hashOf noGui dec2 resOf novOf
        (runMain hname imgs hashOf noGui dec1 resOf novOf
          fs0).fs).presented = [] := by
      apply runMain_presented_empty
      intro g hg
      rw [runMain_groups_scratch] at hg
      rw [runMain_reviewedFinal_load]
      apply runMain_groups_reviewed
      rw [runMain_groups_scratch]
      exact hg
    rw [hpres]
    intro g hg
    exact absurd hg (List.not_mem_nil g)

/-- Witness for C3 at a concrete two-image directory with a GUI run whose
decisions keep everything: the second run produces the same single group
and presents nothing previously reviewed. -/
theorem C3_rerun_same_groups_skips_reviewed_witness :
    ((runMain "phash" [("a.jpg", 1), ("b.jpg", 1)] (fun _ => some "h") false
        (fun _ => Decision.keep) (fun _ => 0) (fun _ => false)
        []).deletedPaths = []) ∧
    (runMain "phash" [("a.jpg", 1), ("b.jpg", 1)] (fun _ => some "h") false
        (fun _ => Decision.keep) (fun _ => 0) (fun _ => false)
        (runMain "phash" [("a.jpg", 1), ("b.jpg", 1)] (fun _ => some "h")
          false (fun _ => Decision.keep) (fun _ => 0) (fun _ => false)
          []).fs).groups
      = (runMain "phash" [("a.jpg", 1), ("b.jpg", 1)] (fun _ => some "h")
          false (fun _ => Decision.keep) (fun _ => 0) (fun _ => false)
          []).groups ∧
    ∀ g ∈ (runMain "phash" [("a.jpg", 1), ("b.jpg", 1)] (fun _ => some "h")
        false (fun _ => Decision.keep) (fun _ => 0) (fun _ => false)
        (runMain "phash" [("a.jpg", 1), ("b.jpg", 1)] (fun _ => some "h")
          false (fun _ => Decision.keep) (fun _ => 0) (fun _ => false)
          []).fs).presented,
      groupId g ∉
        (runMain "phash" [("a.jpg", 1), ("b.jpg", 1)] (fun _ => some "h")
          false (fun _ => Decision.keep) (fun _ => 0) (fun _ => false)
          []).reviewedFinal :=
  ⟨by decide,
    (C3_rerun_same_groups_skips_reviewed "phash" [("a.jpg", 1), ("b.jpg", 1)]
      (fun _ => some "h") false (fun _ => Decision.keep)
      (fun _ => Decision.keep) (fun _ => 0) (fun _ => false) []
      (by decide)).1,
    (C3_rerun_same_groups_skips_reviewed "phash" [("a.jpg", 1), ("b.jpg", 1)]
      (fun _ => some "h") false (fun _ => Decision.keep)
      (fun _ => Decision.keep) (fun _ => 0) (fun _ => false) []
      (by decide)).2⟩

end PhotoSort
